import Mathlib

/-!
Verification of the collaborative-notes session broker (src/api/index.js).

The server keeps a JS `Map` from room id to room state and mutates it from
socket event handlers.  We embed the room store as an association list with
JS-`Map` operations (`get` returns the value at a key, `set` overwrites in
place or appends, `delete` removes the key), and each socket handler as a
pure function from the store to a new store paired with the list of outbound
events it emits.  A recipient set is attached to every event, mirroring
`socket.emit` (the one socket), `socket.to(room).emit` (members except the
sender) and `io.to(room).emit` (all members).
-/

/-- Chat payloads are opaque to the broker (forwarded verbatim, never
inspected); we model them as natural numbers. -/
abbrev ChatMessage := Nat

/-- Room state, mirroring the object stored in the `rooms` map:
`{ id, users, content, chatHistory, createdAt }`.  Timestamps are
milliseconds as a natural number. -/
structure Room where
  id : String
  users : List String
  content : String
  chatHistory : List ChatMessage
  createdAt : Nat
deriving Repr, DecidableEq

/-- The `rooms` map, as an association list from room id to room state. -/
abbrev RoomStore := List (String × Room)

/-- JS Map.get: the value stored at the key, if any. -/
def mapGet : RoomStore → String → Option Room
  | [], _ => none
  | p :: rest, k => if p.1 = k then some p.2 else mapGet rest k

/-- JS Map.has. -/
def mapHas (s : RoomStore) (k : String) : Bool :=
  (mapGet s k).isSome

/-- JS Map.set: overwrite the entry at the key in place, or append a new
entry if the key is absent. -/
def mapSet : RoomStore → String → Room → RoomStore
  | [], k, v => [(k, v)]
  | p :: rest, k, v => if p.1 = k then (k, v) :: rest else p :: mapSet rest k v

/-- JS Map.delete: remove the entry at the key. -/
def mapDelete (s : RoomStore) (k : String) : RoomStore :=
  s.filter (fun p => decide (p.1 ≠ k))

/-- Outbound socket events, each carrying its recipient set. -/
inductive Event where
  | room_joined (target : String) (roomId : String) (users : List String)
      (content : String) (chatHistory : List ChatMessage)
  | user_joined (recipients : List String) (socketId : String) (users : List String)
  | note_update (recipients : List String) (content : String) (sender : String)
  | chat_message (recipients : List String) (message : ChatMessage)
  | user_left (recipients : List String) (socketId : String) (users : List String)
deriving Repr, DecidableEq

/-- The default welcome content a fresh room is created with. -/
def defaultContent : String :=
  "// Welcome to Real-time Collaborative Notes!\n// Start typing to share your code in real-time\n\nconsole.log(\"Hello, collaborative world!\");"

/-- The fresh room object built on first join (`rooms.set(roomId, {...})`). -/
def freshRoom (roomId : String) (now : Nat) : Room :=
  { id := roomId, users := [], content := defaultContent,
    chatHistory := [], createdAt := now }

/-- The `join_room` handler: create the room if absent, add the socket to
`users` unless already present, emit `room_joined` to the joiner,
`user_joined` to the other members, and, when the content string is truthy
(non-empty), a `note_update` from sender `system` to the joiner. -/
def join_room (st : RoomStore) (socketId roomId : String) (now : Nat) :
    RoomStore × List Event :=
  let st1 := if mapHas st roomId then st else mapSet st roomId (freshRoom roomId now)
  match mapGet st1 roomId with
  | none => (st1, [])
  | some room =>
    let room1 := if socketId ∈ room.users then room
                 else { room with users := room.users ++ [socketId] }
    let evs := [Event.room_joined socketId roomId room1.users room1.content room1.chatHistory,
                Event.user_joined (room1.users.filter (fun u => decide (u ≠ socketId)))
                  socketId room1.users]
    let evs := if room1.content ≠ "" then
                 evs ++ [Event.note_update [socketId] room1.content "system"]
               else evs
    (mapSet st1 roomId room1, evs)

/-- The `note_change` handler: silently drop the event unless the room
exists and the sender is a member; otherwise overwrite `content` and
broadcast `note_update` to the other members. -/
def note_change (st : RoomStore) (socketId roomId content : String) :
    RoomStore × List Event :=
  match mapGet st roomId with
  | none => (st, [])
  | some room =>
    if socketId ∈ room.users then
      let room1 := { room with content := content }
      (mapSet st roomId room1,
       [Event.note_update (room.users.filter (fun u => decide (u ≠ socketId)))
          content socketId])
    else (st, [])

/-- The `chat_message` handler: drop unless the room exists and the sender
is a member; otherwise push the message, truncate the history to the last
100 entries (`slice(-100)`) when it exceeds 100, and broadcast the message
to all members, sender included. -/
def chat_message (st : RoomStore) (socketId roomId : String) (message : ChatMessage) :
    RoomStore × List Event :=
  match mapGet st roomId with
  | none => (st, [])
  | some room =>
    if socketId ∈ room.users then
      let hist := room.chatHistory ++ [message]
      let hist := if hist.length > 100 then hist.drop (hist.length - 100) else hist
      let room1 := { room with chatHistory := hist }
      (mapSet st roomId room1, [Event.chat_message room.users message])
    else (st, [])

/-- The `leave_room` handler: if the room exists, filter the socket out of
`users`, broadcast `user_left` to the remaining broadcast group, and delete
the room when `users` becomes empty. -/
def leave_room (st : RoomStore) (socketId roomId : String) :
    RoomStore × List Event :=
  match mapGet st roomId with
  | none => (st, [])
  | some room =>
    let room1 := { room with users := room.users.filter (fun u => decide (u ≠ socketId)) }
    let evs := [Event.user_left room1.users socketId room1.users]
    let st1 := mapSet st roomId room1
    let st1 := if room1.users.length = 0 then mapDelete st1 roomId else st1
    (st1, evs)

/-- One iteration of the `disconnect` handler loop for a single room id:
when the disconnecting socket is a member, remove it, broadcast `user_left`
to the remaining members, and delete the room if it became empty. -/
def disconnectStep (socketId : String) (acc : RoomStore × List Event) (roomId : String) :
    RoomStore × List Event :=
  match mapGet acc.1 roomId with
  | none => acc
  | some room =>
    if socketId ∈ room.users then
      let room1 := { room with users := room.users.filter (fun u => decide (u ≠ socketId)) }
      let evs := acc.2 ++ [Event.user_left room1.users socketId room1.users]
      let st1 := mapSet acc.1 roomId room1
      let st1 := if room1.users.length = 0 then mapDelete st1 roomId else st1
      (st1, evs)
    else acc

/-- The `disconnect` handler: iterate over every room currently in the
store and apply the per-room removal logic. -/
def disconnect (st : RoomStore) (socketId : String) : RoomStore × List Event :=
  (st.map Prod.fst).foldl (disconnectStep socketId) (st, [])

/-- The periodic cleanup sweep (`setInterval` body): delete every room with
no users whose creation time is older than one hour before `now`; it emits
no events. -/
def cleanupSweep (st : RoomStore) (now : Nat) : RoomStore × List Event :=
  (st.filter (fun p =>
      !(p.2.users.length = 0 && decide (p.2.createdAt < now - 60 * 60 * 1000))),
   [])

/-! ### Map lemmas -/

theorem mapGet_mapSet_self (s : RoomStore) (k : String) (v : Room) :
    mapGet (mapSet s k v) k = some v := by
  induction s with
  | nil => simp [mapSet, mapGet]
  | cons p rest ih =>
      by_cases h : p.1 = k
      · simp [mapSet, h, mapGet]
      · simp [mapSet, h, mapGet, ih]

theorem mapGet_mapSet_ne (s : RoomStore) (k r : String) (v : Room) (h : r ≠ k) :
    mapGet (mapSet s k v) r = mapGet s r := by
  have hkr : ¬ (k = r) := fun hh => h hh.symm
  induction s with
  | nil => simp [mapSet, mapGet, hkr]
  | cons p rest ih =>
      by_cases hp : p.1 = k
      · simp [mapSet, hp, mapGet, hkr]
      · simp [mapSet, hp, mapGet, ih]

theorem mapDelete_cons (p : String × Room) (rest : RoomStore) (k : String) :
    mapDelete (p :: rest) k =
      if p.1 = k then mapDelete rest k else p :: mapDelete rest k := by
  by_cases h : p.1 = k <;> simp [mapDelete, List.filter_cons, h]

theorem mapGet_mapDelete_self (s : RoomStore) (k : String) :
    mapGet (mapDelete s k) k = none := by
  induction s with
  | nil => simp [mapDelete, mapGet]
  | cons p rest ih =>
      by_cases h : p.1 = k
      · simp [mapDelete_cons, h, ih]
      · simp [mapDelete_cons, h, mapGet, ih]

theorem mapGet_mapDelete_ne (s : RoomStore) (k r : String) (h : r ≠ k) :
    mapGet (mapDelete s k) r = mapGet s r := by
  have hkr : ¬ (k = r) := fun hh => h hh.symm
  induction s with
  | nil => simp [mapDelete, mapGet]
  | cons p rest ih =>
      by_cases hp : p.1 = k
      · simp [mapDelete_cons, hp, mapGet, hkr, ih]
      · simp [mapDelete_cons, hp, mapGet, ih]

theorem mapSet_get_self (s : RoomStore) (k : String) (v : Room)
    (h : mapGet s k = some v) : mapSet s k v = s := by
  induction s with
  | nil => simp [mapGet] at h
  | cons p rest ih =>
      obtain ⟨a, b⟩ := p
      by_cases hp : a = k
      · simp [mapGet, hp] at h
        simp [mapSet, hp, h]
      · simp [mapGet, hp] at h
        simp [mapSet, hp, ih h]

theorem mapGet_mem (s : RoomStore) (k : String) (v : Room)
    (h : mapGet s k = some v) : (k, v) ∈ s := by
  induction s with
  | nil => simp [mapGet] at h
  | cons p rest ih =>
      obtain ⟨a, b⟩ := p
      by_cases hp : a = k
      · simp [mapGet, hp] at h
        simp [hp, h]
      · simp [mapGet, hp] at h
        exact List.mem_cons_of_mem _ (ih h)

theorem mem_mapSet (s : RoomStore) (k : String) (v : Room) (p : String × Room)
    (h : p ∈ mapSet s k v) : p ∈ s ∨ p = (k, v) := by
  induction s with
  | nil =>
      simp [mapSet] at h
      right; exact h
  | cons q rest ih =>
      by_cases hq : q.1 = k
      · simp only [mapSet, hq, if_pos, List.mem_cons] at h
        rcases h with h | h
        · right; exact h
        · left; exact List.mem_cons_of_mem _ h
      · simp only [mapSet, hq, if_neg, List.mem_cons, not_false_iff] at h
        rcases h with h | h
        · left; simp [h]
        · rcases ih h with h1 | h1
          · left; exact List.mem_cons_of_mem _ h1
          · right; exact h1

theorem mem_mapDelete (s : RoomStore) (k : String) (p : String × Room)
    (h : p ∈ mapDelete s k) : p ∈ s :=
  List.mem_of_mem_filter h

theorem mapSet_of_not_has (s : RoomStore) (k : String) (v : Room)
    (h : mapGet s k = none) : mapSet s k v = s ++ [(k, v)] := by
  induction s with
  | nil => simp [mapSet]
  | cons p rest ih =>
      by_cases hp : p.1 = k
      · simp [mapGet, hp] at h
      · simp [mapGet, hp] at h
        simp [mapSet, hp, ih h]

theorem mapSet_append_fresh (s : RoomStore) (k : String) (v w : Room)
    (h : mapGet s k = none) : mapSet (s ++ [(k, w)]) k v = s ++ [(k, v)] := by
  induction s with
  | nil => simp [mapSet]
  | cons p rest ih =>
      by_cases hp : p.1 = k
      · simp [mapGet, hp] at h
      · simp [mapGet, hp] at h
        simp [mapSet, hp, ih h]

theorem mapGet_append_none (s : RoomStore) (k : String) (v : Room)
    (h : mapGet s k = none) : mapGet (s ++ [(k, v)]) k = some v := by
  induction s with
  | nil => simp [mapGet]
  | cons p rest ih =>
      by_cases hp : p.1 = k
      · simp [mapGet, hp] at h
      · simp [mapGet, hp] at h
        simp [mapGet, hp, ih h]

theorem mapGet_filter_none (s : RoomStore) (f : String × Room → Bool) (k : String)
    (h : mapGet s k = none) : mapGet (s.filter f) k = none := by
  induction s with
  | nil => simp [mapGet]
  | cons p rest ih =>
      by_cases hp : p.1 = k
      · simp [mapGet, hp] at h
      · simp [mapGet, hp] at h
        by_cases hf : f p
        · simp [List.filter_cons, hf, mapGet, hp, ih h]
        · simp [List.filter_cons, hf, ih h]

theorem mapGet_filter_of_true (s : RoomStore) (f : String × Room → Bool)
    (k : String) (v : Room) (h : mapGet s k = some v) (hf : f (k, v) = true) :
    mapGet (s.filter f) k = some v := by
  induction s with
  | nil => simp [mapGet] at h
  | cons p rest ih =>
      obtain ⟨a, b⟩ := p
      by_cases hp : a = k
      · simp [mapGet, hp] at h
        have hab : (⟨a, b⟩ : String × Room) = (k, v) := by simp [hp, h]
        simp [List.filter_cons, hab, hf, mapGet]
      · simp [mapGet, hp] at h
        by_cases hfp : f (a, b)
        · simp [List.filter_cons, hfp, mapGet, hp, ih h]
        · simp [List.filter_cons, hfp, ih h]

theorem mapGet_filter_of_false (s : RoomStore) (f : String × Room → Bool)
    (k : String) (v : Room) (hkeys : (s.map Prod.fst).Nodup)
    (h : mapGet s k = some v) (hf : f (k, v) = false) :
    mapGet (s.filter f) k = none := by
  induction s with
  | nil => simp [mapGet] at h
  | cons p rest ih =>
      have hkeys' : (rest.map Prod.fst).Nodup := (List.nodup_cons.mp hkeys).2
      obtain ⟨a, b⟩ := p
      by_cases hp : a = k
      · simp [mapGet, hp] at h
        have hknot : k ∉ rest.map Prod.fst := by
          have := (List.nodup_cons.mp hkeys).1
          simpa [hp] using this
        have hrest : mapGet rest k = none := by
          cases hrk : mapGet rest k with
          | none => rfl
          | some w =>
              exact absurd (List.mem_map_of_mem Prod.fst (mapGet_mem rest k w hrk)) hknot
        have hab : (⟨a, b⟩ : String × Room) = (k, v) := by simp [hp, h]
        have hres := mapGet_filter_none rest f k hrest
        simpa [List.filter_cons, hab, hf] using hres
      · simp [mapGet, hp] at h
        by_cases hfp : f (a, b)
        · simp [List.filter_cons, hfp, mapGet, hp, ih hkeys' h]
        · simp [List.filter_cons, hfp, ih hkeys' h]

/-! ### Derived definitions used by the claims -/

/-- Membership-guarded push, the effect of a single join on the user list
(`if (!room.users.includes(socket.id)) room.users.push(socket.id)`). -/
def insertAbsent (u : List String) (sid : String) : List String :=
  if sid ∈ u then u else u ++ [sid]

/-- The store after a sequence of joins to the same room. -/
def applyJoins (st : RoomStore) (roomId : String) (now : Nat) (sids : List String) :
    RoomStore :=
  sids.foldl (fun s sid => (join_room s sid roomId now).1) st

/-- The store after a sequence of chat messages from one sender to one room. -/
def applyChats (st : RoomStore) (sid roomId : String) (msgs : List ChatMessage) :
    RoomStore :=
  msgs.foldl (fun s m => (chat_message s sid roomId m).1) st

/-- The last `n` elements of a list, as produced by JS `slice(-n)`. -/
def lastN {α : Type} (n : Nat) (l : List α) : List α := l.drop (l.length - n)

/-- The mutating operations of the broker, for reachability statements. -/
inductive Op where
  | join (sid roomId : String) (now : Nat)
  | note (sid roomId content : String)
  | chat (sid roomId : String) (msg : ChatMessage)
  | leave (sid roomId : String)
  | disc (sid : String)
  | sweep (now : Nat)

/-- Apply one operation to the store, discarding the emitted events. -/
def stepOp (st : RoomStore) : Op → RoomStore
  | Op.join sid roomId now => (join_room st sid roomId now).1
  | Op.note sid roomId c => (note_change st sid roomId c).1
  | Op.chat sid roomId m => (chat_message st sid roomId m).1
  | Op.leave sid roomId => (leave_room st sid roomId).1
  | Op.disc sid => (disconnect st sid).1
  | Op.sweep now => (cleanupSweep st now).1

/-- The store reached by running a trace of operations from the empty map
the server starts with. -/
def runOps (ops : List Op) : RoomStore := ops.foldl stepOp []

/-- Every stored room has at least one member. -/
def allNonEmpty (s : RoomStore) : Prop := ∀ p ∈ s, p.2.users ≠ []

/-! ### Handler characterizations -/

theorem join_room_of_none (st : RoomStore) (sid roomId : String) (now : Nat)
    (h : mapGet st roomId = none) :
    join_room st sid roomId now =
      (st ++ [(roomId, { id := roomId, users := [sid], content := defaultContent,
                         chatHistory := [], createdAt := now })],
       [Event.room_joined sid roomId [sid] defaultContent [],
        Event.user_joined [] sid [sid],
        Event.note_update [sid] defaultContent "system"]) := by
  have hhas : mapHas st roomId = false := by simp [mapHas, h]
  have hdc : defaultContent ≠ "" := by decide
  have hset : mapSet st roomId (freshRoom roomId now) = st ++ [(roomId, freshRoom roomId now)] :=
    mapSet_of_not_has st roomId _ h
  have hget : mapGet (st ++ [(roomId, freshRoom roomId now)]) roomId = some (freshRoom roomId now) :=
    mapGet_append_none st roomId _ h
  have hset2 : mapSet (st ++ [(roomId, freshRoom roomId now)]) roomId
      { id := roomId, users := [sid], content := defaultContent,
        chatHistory := [], createdAt := now } =
      st ++ [(roomId, { id := roomId, users := [sid], content := defaultContent,
                        chatHistory := [], createdAt := now })] :=
    mapSet_append_fresh st roomId _ _ h
  simp only [freshRoom] at hset hget hset2
  simp [join_room, hhas, hset, hget, freshRoom, hdc, hset2, List.filter]

theorem join_room_of_some (st : RoomStore) (sid roomId : String) (now : Nat)
    (room : Room) (h : mapGet st roomId = some room) :
    join_room st sid roomId now =
      (let room1 := if sid ∈ room.users then room
                    else { room with users := room.users ++ [sid] }
       (mapSet st roomId room1,
        [Event.room_joined sid roomId room1.users room1.content room1.chatHistory,
         Event.user_joined (room1.users.filter (fun u => decide (u ≠ sid)))
           sid room1.users] ++
        (if room1.content ≠ "" then
           [Event.note_update [sid] room1.content "system"] else []))) := by
  have hhas : mapHas st roomId = true := by simp [mapHas, h]
  by_cases hc : (if sid ∈ room.users then room
                 else { room with users := room.users ++ [sid] }).content ≠ ""
  · simp [join_room, hhas, h, hc]
  · simp [join_room, hhas, h, hc]

theorem note_change_of_member (st : RoomStore) (sid roomId c : String)
    (room : Room) (h : mapGet st roomId = some room) (hmem : sid ∈ room.users) :
    note_change st sid roomId c =
      (mapSet st roomId { room with content := c },
       [Event.note_update (room.users.filter (fun u => decide (u ≠ sid))) c sid]) := by
  simp [note_change, h, hmem]

theorem note_change_of_nonmember (st : RoomStore) (sid roomId c : String)
    (h : ∀ room, mapGet st roomId = some room → sid ∉ room.users) :
    note_change st sid roomId c = (st, []) := by
  cases hr : mapGet st roomId with
  | none => simp [note_change, hr]
  | some room => simp [note_change, hr, h room hr]

theorem chat_message_of_member (st : RoomStore) (sid roomId : String)
    (m : ChatMessage) (room : Room) (h : mapGet st roomId = some room)
    (hmem : sid ∈ room.users) :
    chat_message st sid roomId m =
      (mapSet st roomId { room with chatHistory := lastN 100 (room.chatHistory ++ [m]) },
       [Event.chat_message room.users m]) := by
  have hlast : lastN 100 (room.chatHistory ++ [m]) =
      if (room.chatHistory ++ [m]).length > 100 then
        (room.chatHistory ++ [m]).drop ((room.chatHistory ++ [m]).length - 100)
      else room.chatHistory ++ [m] := by
    unfold lastN
    by_cases hlen : (room.chatHistory ++ [m]).length > 100
    · rw [if_pos hlen]
    · rw [if_neg hlen]
      have h0 : (room.chatHistory ++ [m]).length - 100 = 0 := by omega
      rw [h0, List.drop_zero]
  rw [hlast]
  simp [chat_message, h, hmem]

theorem chat_message_of_nonmember (st : RoomStore) (sid roomId : String)
    (m : ChatMessage) (h : ∀ room, mapGet st roomId = some room → sid ∉ room.users) :
    chat_message st sid roomId m = (st, []) := by
  cases hr : mapGet st roomId with
  | none => simp [chat_message, hr]
  | some room => simp [chat_message, hr, h room hr]

theorem leave_room_of_none (st : RoomStore) (sid roomId : String)
    (h : mapGet st roomId = none) : leave_room st sid roomId = (st, []) := by
  simp [leave_room, h]

theorem leave_room_of_some (st : RoomStore) (sid roomId : String) (room : Room)
    (h : mapGet st roomId = some room) :
    leave_room st sid roomId =
      (if (room.users.filter (fun u => decide (u ≠ sid))).length = 0 then
         mapDelete (mapSet st roomId
           { room with users := room.users.filter (fun u => decide (u ≠ sid)) }) roomId
       else mapSet st roomId
           { room with users := room.users.filter (fun u => decide (u ≠ sid)) },
       [Event.user_left (room.users.filter (fun u => decide (u ≠ sid))) sid
          (room.users.filter (fun u => decide (u ≠ sid)))]) := by
  by_cases hlen : (room.users.filter (fun u => decide (u ≠ sid))).length = 0
  · simp [leave_room, h, hlen]
  · simp [leave_room, h, hlen]

theorem leave_room_get_empty (st : RoomStore) (sid roomId : String) (room : Room)
    (h : mapGet st roomId = some room)
    (hempty : room.users.filter (fun u => decide (u ≠ sid)) = []) :
    mapGet (leave_room st sid roomId).1 roomId = none := by
  rw [leave_room_of_some st sid roomId room h]
  simp only []
  rw [hempty]
  simp [mapGet_mapDelete_self]

theorem leave_room_of_nonmember (st : RoomStore) (sid roomId : String) (room : Room)
    (h : mapGet st roomId = some room) (hnm : sid ∉ room.users)
    (hne : room.users ≠ []) :
    leave_room st sid roomId = (st, [Event.user_left room.users sid room.users]) := by
  have hfilter : room.users.filter (fun u => decide (u ≠ sid)) = room.users := by
    apply List.filter_eq_self.mpr
    intro u hu
    simp only [decide_eq_true_eq]
    exact fun heq => hnm (heq ▸ hu)
  have hlen : ¬ (room.users.length = 0) := by
    simpa [List.length_eq_zero] using hne
  rw [leave_room_of_some st sid roomId room h]
  rw [hfilter]
  rw [if_neg hlen]
  exact congrArg (fun s => (s, [Event.user_left room.users sid room.users]))
    (mapSet_get_self st roomId room h)

theorem disconnectStep_of_some (sid : String) (acc : RoomStore × List Event)
    (k : String) (room : Room) (h : mapGet acc.1 k = some room)
    (hmem : sid ∈ room.users) :
    disconnectStep sid acc k =
      (if (room.users.filter (fun u => decide (u ≠ sid))).length = 0 then
         mapDelete (mapSet acc.1 k
           { room with users := room.users.filter (fun u => decide (u ≠ sid)) }) k
       else mapSet acc.1 k
           { room with users := room.users.filter (fun u => decide (u ≠ sid)) },
       acc.2 ++ [Event.user_left (room.users.filter (fun u => decide (u ≠ sid))) sid
          (room.users.filter (fun u => decide (u ≠ sid)))]) := by
  by_cases hlen : (room.users.filter (fun u => decide (u ≠ sid))).length = 0
  · simp [disconnectStep, h, hmem, hlen]
  · simp [disconnectStep, h, hmem, hlen]

theorem disconnectStep_preserves_ne (sid : String) (acc : RoomStore × List Event)
    (k roomId : String) (hne : roomId ≠ k) :
    mapGet ((disconnectStep sid acc k).1) roomId = mapGet acc.1 roomId := by
  cases hk : mapGet acc.1 k with
  | none => simp [disconnectStep, hk]
  | some room =>
      by_cases hmem : sid ∈ room.users
      · rw [disconnectStep_of_some sid acc k room hk hmem]
        simp only []
        by_cases hlen : (room.users.filter (fun u => decide (u ≠ sid))).length = 0
        · rw [if_pos hlen, mapGet_mapDelete_ne _ _ _ hne, mapGet_mapSet_ne _ _ _ _ hne]
        · rw [if_neg hlen, mapGet_mapSet_ne _ _ _ _ hne]
      · simp [disconnectStep, hk, hmem]

theorem disconnectStep_deletes (sid : String) (acc : RoomStore × List Event)
    (roomId : String) (room : Room) (h : mapGet acc.1 roomId = some room)
    (hmem : sid ∈ room.users)
    (hempty : room.users.filter (fun u => decide (u ≠ sid)) = []) :
    mapGet ((disconnectStep sid acc roomId).1) roomId = none := by
  rw [disconnectStep_of_some sid acc roomId room h hmem]
  simp only []
  rw [hempty]
  simp [mapGet_mapDelete_self]

theorem disconnectStep_none (sid : String) (acc : RoomStore × List Event)
    (k roomId : String) (h : mapGet acc.1 roomId = none) :
    mapGet ((disconnectStep sid acc k).1) roomId = none := by
  rcases eq_or_ne roomId k with heq | hne
  · subst heq
    simp [disconnectStep, h]
  · rw [disconnectStep_preserves_ne sid acc k roomId hne]
    exact h

theorem foldl_disconnect_none (sid : String) (keys : List String)
    (acc : RoomStore × List Event) (roomId : String)
    (h : mapGet acc.1 roomId = none ∨
         (roomId ∈ keys ∧ ∃ room, mapGet acc.1 roomId = some room ∧ sid ∈ room.users ∧
            room.users.filter (fun u => decide (u ≠ sid)) = [])) :
    mapGet ((keys.foldl (disconnectStep sid) acc).1) roomId = none := by
  induction keys generalizing acc with
  | nil =>
      rcases h with h | ⟨hmem, _⟩
      · exact h
      · exact absurd hmem (List.not_mem_nil roomId)
  | cons k rest ih =>
      rw [List.foldl_cons]
      rcases h with h | ⟨hkmem, room, hget, hmem, hempty⟩
      · exact ih _ (Or.inl (disconnectStep_none sid acc k roomId h))
      · rcases eq_or_ne roomId k with heq | hne
        · subst heq
          exact ih _ (Or.inl (disconnectStep_deletes sid acc roomId room hget hmem hempty))
        · have hrest : roomId ∈ rest := by
            rcases List.mem_cons.mp hkmem with h1 | h1
            · exact absurd h1 hne
            · exact h1
          refine ih _ (Or.inr ⟨hrest, room, ?_, hmem, hempty⟩)
          rw [disconnectStep_preserves_ne sid acc k roomId hne]
          exact hget

theorem disconnect_get_empty (st : RoomStore) (sid roomId : String) (room : Room)
    (h : mapGet st roomId = some room) (hmem : sid ∈ room.users)
    (hempty : room.users.filter (fun u => decide (u ≠ sid)) = []) :
    mapGet (disconnect st sid).1 roomId = none := by
  unfold disconnect
  apply foldl_disconnect_none
  exact Or.inr ⟨List.mem_map_of_mem Prod.fst (mapGet_mem st roomId room h),
    room, h, hmem, hempty⟩

/-! ### List lemmas for join sequences and chat history -/

theorem foldl_insertAbsent_nodup (ids : List String) (u : List String) (h : u.Nodup) :
    (ids.foldl insertAbsent u).Nodup := by
  induction ids generalizing u with
  | nil => exact h
  | cons i rest ih =>
      rw [List.foldl_cons]
      apply ih
      unfold insertAbsent
      by_cases hi : i ∈ u
      · simpa [hi] using h
      · rw [if_neg hi]
        rw [List.nodup_append]
        exact ⟨h, List.nodup_singleton i, fun a ha => by
          simp only [List.mem_singleton]
          exact fun heq => hi (heq ▸ ha)⟩

theorem mem_foldl_insertAbsent (ids : List String) (u : List String) (x : String) :
    x ∈ ids.foldl insertAbsent u ↔ x ∈ u ∨ x ∈ ids := by
  induction ids generalizing u with
  | nil => simp
  | cons i rest ih =>
      rw [List.foldl_cons, ih]
      by_cases hi : i ∈ u
      · simp only [insertAbsent, if_pos hi, List.mem_cons]
        constructor
        · rintro (h | h)
          · exact Or.inl h
          · exact Or.inr (Or.inr h)
        · rintro (h | h | h)
          · exact Or.inl h
          · exact Or.inl (h ▸ hi)
          · exact Or.inr h
      · simp only [insertAbsent, if_neg hi, List.mem_append, List.mem_singleton,
          List.mem_cons]
        tauto

theorem nodup_length_eq_dedup (l ids : List String) (h : l.Nodup)
    (hmem : ∀ x, x ∈ l ↔ x ∈ ids) : l.length = ids.dedup.length := by
  have hperm : l.Perm ids.dedup :=
    (List.perm_ext_iff_of_nodup h (List.nodup_dedup ids)).mpr
      (fun a => by rw [hmem, List.mem_dedup])
  exact hperm.length_eq

theorem lastN_length_le {α : Type} (n : Nat) (l : List α) : (lastN n l).length ≤ n := by
  simp only [lastN, List.length_drop]
  omega

theorem lastN_of_le {α : Type} (n : Nat) (l : List α) (h : l.length ≤ n) :
    lastN n l = l := by
  simp [lastN, Nat.sub_eq_zero_of_le h]

theorem lastN_append_lastN {α : Type} (n : Nat) (l r : List α) :
    lastN n (lastN n l ++ r) = lastN n (l ++ r) := by
  unfold lastN
  rw [List.drop_append_eq_append_drop, List.drop_append_eq_append_drop]
  congr 1
  · rw [List.drop_drop]
    congr 1
    simp only [List.length_append, List.length_drop]
    omega
  · congr 1
    simp only [List.length_append, List.length_drop]
    omega

theorem foldl_lastN (msgs : List ChatMessage) (h0 : List ChatMessage)
    (hlen : h0.length ≤ 100) :
    msgs.foldl (fun h m => lastN 100 (h ++ [m])) h0 = lastN 100 (h0 ++ msgs) := by
  induction msgs generalizing h0 with
  | nil => simp [lastN_of_le 100 h0 hlen]
  | cons m rest ih =>
      rw [List.foldl_cons]
      rw [ih (lastN 100 (h0 ++ [m])) (lastN_length_le _ _)]
      rw [lastN_append_lastN]
      simp

/-! ### Join sequences -/

theorem join_room_users (st : RoomStore) (sid roomId : String) (now : Nat)
    (room : Room) (h : mapGet st roomId = some room) :
    ∃ room1, mapGet (join_room st sid roomId now).1 roomId = some room1 ∧
      room1.users = insertAbsent room.users sid ∧
      room1.content = room.content ∧ room1.chatHistory = room.chatHistory ∧
      room1.createdAt = room.createdAt := by
  rw [join_room_of_some st sid roomId now room h]
  by_cases hmem : sid ∈ room.users
  · refine ⟨room, ?_, ?_, rfl, rfl, rfl⟩
    · simp [hmem, mapGet_mapSet_self]
    · simp [insertAbsent, hmem]
  · refine ⟨{ room with users := room.users ++ [sid] }, ?_, ?_, rfl, rfl, rfl⟩
    · simp [hmem, mapGet_mapSet_self]
    · simp [insertAbsent, hmem]

theorem applyJoins_cons (st : RoomStore) (roomId : String) (now : Nat)
    (i : String) (rest : List String) :
    applyJoins st roomId now (i :: rest) =
      applyJoins (join_room st i roomId now).1 roomId now rest := rfl

theorem applyJoins_users (st : RoomStore) (roomId : String) (now : Nat)
    (sids : List String) (room : Room) (h : mapGet st roomId = some room) :
    ∃ room1, mapGet (applyJoins st roomId now sids) roomId = some room1 ∧
      room1.users = sids.foldl insertAbsent room.users := by
  induction sids generalizing st room with
  | nil => exact ⟨room, h, rfl⟩
  | cons i rest ih =>
      rw [applyJoins_cons]
      obtain ⟨room1, hget, husers, _, _, _⟩ := join_room_users st i roomId now room h
      obtain ⟨room2, hget2, husers2⟩ := ih (join_room st i roomId now).1 room1 hget
      refine ⟨room2, hget2, ?_⟩
      rw [husers2, husers, List.foldl_cons]

/-! ### Chat sequences -/

theorem applyChats_cons (st : RoomStore) (sid roomId : String) (m : ChatMessage)
    (rest : List ChatMessage) :
    applyChats st sid roomId (m :: rest) =
      applyChats (chat_message st sid roomId m).1 sid roomId rest := rfl

theorem applyChats_history (st : RoomStore) (sid roomId : String)
    (msgs : List ChatMessage) (room : Room)
    (h : mapGet st roomId = some room) (hmem : sid ∈ room.users) :
    ∃ room1, mapGet (applyChats st sid roomId msgs) roomId = some room1 ∧
      room1.users = room.users ∧
      room1.chatHistory =
        msgs.foldl (fun hh m => lastN 100 (hh ++ [m])) room.chatHistory := by
  induction msgs generalizing st room with
  | nil => exact ⟨room, h, rfl, rfl⟩
  | cons m rest ih =>
      rw [applyChats_cons]
      rw [chat_message_of_member st sid roomId m room h hmem]
      obtain ⟨room1, hget1, husers1, hhist1⟩ :=
        ih (mapSet st roomId { room with chatHistory := lastN 100 (room.chatHistory ++ [m]) })
          { room with chatHistory := lastN 100 (room.chatHistory ++ [m]) }
          (mapGet_mapSet_self _ _ _) hmem
      refine ⟨room1, hget1, husers1, ?_⟩
      rw [List.foldl_cons]
      exact hhist1

/-! ### Preservation of the nonempty-membership invariant -/

theorem mem_mapDelete_ne (s : RoomStore) (k : String) (p : String × Room)
    (h : p ∈ mapDelete s k) : p ∈ s ∧ p.1 ≠ k := by
  have h2 := List.mem_filter.mp h
  exact ⟨h2.1, by simpa using h2.2⟩

theorem allNonEmpty_mapSet (s : RoomStore) (k : String) (v : Room)
    (hs : allNonEmpty s) (hv : v.users ≠ []) : allNonEmpty (mapSet s k v) := by
  intro p hp
  rcases mem_mapSet s k v p hp with h | h
  · exact hs p h
  · rw [h]
    exact hv

theorem allNonEmpty_join (st : RoomStore) (sid roomId : String) (now : Nat)
    (hs : allNonEmpty st) : allNonEmpty (join_room st sid roomId now).1 := by
  cases hr : mapGet st roomId with
  | none =>
      rw [join_room_of_none st sid roomId now hr]
      intro p hp
      rcases List.mem_append.mp hp with h | h
      · exact hs p h
      · simp only [List.mem_singleton] at h
        rw [h]
        simp
  | some room =>
      rw [join_room_of_some st sid roomId now room hr]
      have h1 : (if sid ∈ room.users then room
                 else { room with users := room.users ++ [sid] }).users ≠ [] := by
        by_cases hmem : sid ∈ room.users
        · rw [if_pos hmem]
          exact List.ne_nil_of_mem hmem
        · rw [if_neg hmem]
          simp
      exact allNonEmpty_mapSet st roomId _ hs h1

theorem allNonEmpty_note (st : RoomStore) (sid roomId c : String)
    (hs : allNonEmpty st) : allNonEmpty (note_change st sid roomId c).1 := by
  cases hr : mapGet st roomId with
  | none => simpa [note_change, hr] using hs
  | some room =>
      by_cases hmem : sid ∈ room.users
      · rw [note_change_of_member st sid roomId c room hr hmem]
        apply allNonEmpty_mapSet _ _ _ hs
        exact hs (roomId, room) (mapGet_mem st roomId room hr)
      · have hno : ∀ r, mapGet st roomId = some r → sid ∉ r.users := by
          intro r hrr
          rw [hr] at hrr
          injection hrr with he
          rw [← he]
          exact hmem
        rw [note_change_of_nonmember st sid roomId c hno]
        exact hs

theorem allNonEmpty_chat (st : RoomStore) (sid roomId : String) (m : ChatMessage)
    (hs : allNonEmpty st) : allNonEmpty (chat_message st sid roomId m).1 := by
  cases hr : mapGet st roomId with
  | none => simpa [chat_message, hr] using hs
  | some room =>
      by_cases hmem : sid ∈ room.users
      · rw [chat_message_of_member st sid roomId m room hr hmem]
        apply allNonEmpty_mapSet _ _ _ hs
        exact hs (roomId, room) (mapGet_mem st roomId room hr)
      · have hno : ∀ r, mapGet st roomId = some r → sid ∉ r.users := by
          intro r hrr
          rw [hr] at hrr
          injection hrr with he
          rw [← he]
          exact hmem
        rw [chat_message_of_nonmember st sid roomId m hno]
        exact hs

theorem allNonEmpty_leave (st : RoomStore) (sid roomId : String)
    (hs : allNonEmpty st) : allNonEmpty (leave_room st sid roomId).1 := by
  cases hr : mapGet st roomId with
  | none =>
      rw [leave_room_of_none st sid roomId hr]
      exact hs
  | some room =>
      rw [leave_room_of_some st sid roomId room hr]
      simp only []
      by_cases hlen : (room.users.filter (fun u => decide (u ≠ sid))).length = 0
      · rw [if_pos hlen]
        intro p hp
        obtain ⟨hp1, hp2⟩ := mem_mapDelete_ne _ _ p hp
        rcases mem_mapSet _ _ _ p hp1 with h | h
        · exact hs p h
        · exact absurd (by rw [h]) hp2
      · rw [if_neg hlen]
        apply allNonEmpty_mapSet _ _ _ hs
        intro hnil
        apply hlen
        have hnil2 : room.users.filter (fun u => decide (u ≠ sid)) = [] := hnil
        rw [hnil2]
        rfl

theorem allNonEmpty_disconnectStep (sid : String) (acc : RoomStore × List Event)
    (k : String) (hs : allNonEmpty acc.1) : allNonEmpty (disconnectStep sid acc k).1 := by
  cases hr : mapGet acc.1 k with
  | none => simpa [disconnectStep, hr] using hs
  | some room =>
      by_cases hmem : sid ∈ room.users
      · rw [disconnectStep_of_some sid acc k room hr hmem]
        simp only []
        by_cases hlen : (room.users.filter (fun u => decide (u ≠ sid))).length = 0
        · rw [if_pos hlen]
          intro p hp
          obtain ⟨hp1, hp2⟩ := mem_mapDelete_ne _ _ p hp
          rcases mem_mapSet _ _ _ p hp1 with h | h
          · exact hs p h
          · exact absurd (by rw [h]) hp2
        · rw [if_neg hlen]
          apply allNonEmpty_mapSet _ _ _ hs
          intro hnil
          apply hlen
          have hnil2 : room.users.filter (fun u => decide (u ≠ sid)) = [] := hnil
          rw [hnil2]
          rfl
      · simpa [disconnectStep, hr, hmem] using hs

theorem allNonEmpty_disconnect (st : RoomStore) (sid : String)
    (hs : allNonEmpty st) : allNonEmpty (disconnect st sid).1 := by
  unfold disconnect
  have h : ∀ (keys : List String) (acc : RoomStore × List Event), allNonEmpty acc.1 →
      allNonEmpty ((keys.foldl (disconnectStep sid) acc).1) := by
    intro keys
    induction keys with
    | nil => exact fun acc h => h
    | cons k rest ih =>
        intro acc hacc
        rw [List.foldl_cons]
        exact ih _ (allNonEmpty_disconnectStep sid acc k hacc)
  exact h _ (st, []) hs

theorem allNonEmpty_sweep (st : RoomStore) (now : Nat)
    (hs : allNonEmpty st) : allNonEmpty (cleanupSweep st now).1 :=
  fun p hp => hs p (List.mem_of_mem_filter hp)

theorem allNonEmpty_stepOp (st : RoomStore) (op : Op) (hs : allNonEmpty st) :
    allNonEmpty (stepOp st op) := by
  cases op with
  | join sid roomId now => exact allNonEmpty_join st sid roomId now hs
  | note sid roomId c => exact allNonEmpty_note st sid roomId c hs
  | chat sid roomId m => exact allNonEmpty_chat st sid roomId m hs
  | leave sid roomId => exact allNonEmpty_leave st sid roomId hs
  | disc sid => exact allNonEmpty_disconnect st sid hs
  | sweep now => exact allNonEmpty_sweep st now hs

theorem allNonEmpty_runOps (ops : List Op) : allNonEmpty (runOps ops) := by
  have h : ∀ st, allNonEmpty st → allNonEmpty (ops.foldl stepOp st) := by
    induction ops with
    | nil => exact fun st h => h
    | cons op rest ih =>
        intro st hst
        rw [List.foldl_cons]
        exact ih _ (allNonEmpty_stepOp st op hst)
  exact h [] (fun p hp => absurd hp (List.not_mem_nil p))

/-- Room constructor used to build concrete stores in witnesses. -/
def mkRoom (i : String) (us : List String) (c : String) (hist : List ChatMessage)
    (t : Nat) : Room :=
  { id := i, users := us, content := c, chatHistory := hist, createdAt := t }

/-! ### Claims -/

/-- C1, counterexample to the re-join clause: with members B then A in room
r, a second join by the already-joined A leaves the stored room unchanged
but emits the very same user_joined event to B again, so a re-join does
emit a duplicate user_joined. -/
theorem claim_C1_counterexample :
    Event.user_joined ["B"] "A" ["B", "A"]
      ∈ (join_room (join_room [] "B" "r" 0).1 "A" "r" 0).2 ∧
    Event.user_joined ["B"] "A" ["B", "A"]
      ∈ (join_room (join_room (join_room [] "B" "r" 0).1 "A" "r" 0).1 "A" "r" 0).2 ∧
    mapGet (join_room (join_room (join_room [] "B" "r" 0).1 "A" "r" 0).1 "A" "r" 0).1 "r"
      = mapGet (join_room (join_room [] "B" "r" 0).1 "A" "r" 0).1 "r" := by
  decide

/-- C1 (amended): for every sequence of joins to one room starting from a
store without that room, the member list has no duplicates, contains
exactly the joined connection ids, and its length is the number of distinct
joined connections; a re-join by an already-joined connection leaves the
member list unchanged, but it still emits a user_joined event (with the
unchanged member list) addressed to the other members. -/
theorem claim_C1_amended (st : RoomStore) (roomId : String) (now : Nat)
    (ids : List String) (h0 : mapGet st roomId = none) (hne : ids ≠ []) :
    (∃ room, mapGet (applyJoins st roomId now ids) roomId = some room ∧
       room.users.Nodup ∧ (∀ x, x ∈ room.users ↔ x ∈ ids) ∧
       room.users.length = ids.dedup.length) ∧
    (∀ (st2 : RoomStore) (room2 : Room) (sid : String),
       mapGet st2 roomId = some room2 → sid ∈ room2.users →
       (∃ room3, mapGet (join_room st2 sid roomId now).1 roomId = some room3 ∧
          room3.users = room2.users) ∧
       Event.user_joined (room2.users.filter (fun u => decide (u ≠ sid))) sid room2.users
         ∈ (join_room st2 sid roomId now).2) := by
  constructor
  · obtain ⟨i, rest, rfl⟩ := List.exists_cons_of_ne_nil hne
    rw [applyJoins_cons]
    have hget1 : mapGet (join_room st i roomId now).1 roomId =
        some (mkRoom roomId [i] defaultContent [] now) := by
      rw [join_room_of_none st i roomId now h0]
      exact mapGet_append_none st roomId _ h0
    obtain ⟨room1, hget, husers⟩ := applyJoins_users _ roomId now rest _ hget1
    have husers2 : room1.users = List.foldl insertAbsent [i] rest := husers
    have hnodup : room1.users.Nodup := by
      rw [husers2]
      exact foldl_insertAbsent_nodup rest [i] (List.nodup_singleton i)
    have hmemiff : ∀ x, x ∈ room1.users ↔ x ∈ i :: rest := by
      intro x
      rw [husers2, mem_foldl_insertAbsent]
      simp
    exact ⟨room1, hget, hnodup, hmemiff, nodup_length_eq_dedup _ _ hnodup hmemiff⟩
  · intro st2 room2 sid hget hmem
    constructor
    · refine ⟨room2, ?_, rfl⟩
      rw [join_room_of_some st2 sid roomId now room2 hget]
      simp [hmem, mapGet_mapSet_self]
    · rw [join_room_of_some st2 sid roomId now room2 hget]
      simp [hmem]

/-- C1 witness: the amended theorem applied to the concrete join sequence
A, B, A on room r, starting from the empty store. -/
theorem claim_C1_amended_witness :
    ∃ room, mapGet (applyJoins [] "r" 0 ["A", "B", "A"]) "r" = some room ∧
      room.users.Nodup ∧ (∀ x, x ∈ room.users ↔ x ∈ (["A", "B", "A"] : List String)) ∧
      room.users.length = (["A", "B", "A"] : List String).dedup.length :=
  (claim_C1_amended [] "r" 0 ["A", "B", "A"] rfl (by decide)).1

/-- C2: for every room with the sender among its members and a history of
at most 100 messages, a sequence of chat appends leaves the history equal
to the last 100 of the old history followed by the appended messages, so
the bound holds after every append; in particular, 150 appends onto an
empty history leave exactly the last 100 appended messages in call
order. -/
theorem claim_C2 (st : RoomStore) (sid roomId : String) (msgs : List ChatMessage)
    (room : Room) (h : mapGet st roomId = some room) (hmem : sid ∈ room.users)
    (hlen : room.chatHistory.length ≤ 100) :
    ∃ room1, mapGet (applyChats st sid roomId msgs) roomId = some room1 ∧
      room1.chatHistory = lastN 100 (room.chatHistory ++ msgs) ∧
      room1.chatHistory.length ≤ 100 ∧
      (room.chatHistory = [] → msgs.length = 150 →
        room1.chatHistory.length = 100 ∧ room1.chatHistory = msgs.drop 50) := by
  obtain ⟨room1, hget, husers, hhist⟩ := applyChats_history st sid roomId msgs room h hmem
  rw [foldl_lastN msgs room.chatHistory hlen] at hhist
  refine ⟨room1, hget, hhist, ?_, ?_⟩
  · rw [hhist]
    exact lastN_length_le _ _
  · intro hnil h150
    rw [hnil] at hhist
    simp only [List.nil_append] at hhist
    constructor
    · rw [hhist]
      simp only [lastN, List.length_drop, h150]
    · rw [hhist]
      simp only [lastN, h150]

/-- C2 witness: 150 concrete messages into a one-member room with empty
history. -/
theorem claim_C2_witness :
    ∃ room1,
      mapGet (applyChats [("r", mkRoom "r" ["A"] "" [] 0)] "A" "r" (List.range 150)) "r"
        = some room1 ∧
      room1.chatHistory = lastN 100 (([] : List ChatMessage) ++ List.range 150) ∧
      room1.chatHistory.length ≤ 100 ∧
      (([] : List ChatMessage) = [] → (List.range 150).length = 150 →
        room1.chatHistory.length = 100 ∧ room1.chatHistory = (List.range 150).drop 50) :=
  claim_C2 [("r", mkRoom "r" ["A"] "" [] 0)] "A" "r" (List.range 150)
    (mkRoom "r" ["A"] "" [] 0) rfl (by decide) (by decide)

/-- C3: a note_change whose sender is not a member of the target room (or
whose room does not exist) leaves the store unchanged and emits nothing, so
no error reaches the sender; from a member it overwrites the content with
the new value and broadcasts note_update with that content and the sender
id to the other members. -/
theorem claim_C3 (st : RoomStore) (sid roomId c : String) :
    ((∀ room, mapGet st roomId = some room → sid ∉ room.users) →
       note_change st sid roomId c = (st, [])) ∧
    (∀ room, mapGet st roomId = some room → sid ∈ room.users →
       (∃ room1, mapGet (note_change st sid roomId c).1 roomId = some room1 ∧
          room1.content = c ∧ room1.users = room.users ∧
          room1.chatHistory = room.chatHistory) ∧
       (note_change st sid roomId c).2 =
         [Event.note_update (room.users.filter (fun u => decide (u ≠ sid))) c sid]) := by
  constructor
  · exact fun h => note_change_of_nonmember st sid roomId c h
  · intro room hget hmem
    rw [note_change_of_member st sid roomId c room hget hmem]
    exact ⟨⟨{ room with content := c }, mapGet_mapSet_self _ _ _, rfl, rfl, rfl⟩, rfl⟩

/-- C3 witness: a non-member B is dropped silently, a member A overwrites
the content of room r. -/
theorem claim_C3_witness :
    (note_change [("r", mkRoom "r" ["A"] "x" [] 0)] "B" "r" "y" =
      ([("r", mkRoom "r" ["A"] "x" [] 0)], [])) ∧
    ((∃ room1, mapGet (note_change [("r", mkRoom "r" ["A"] "x" [] 0)] "A" "r" "y").1 "r"
        = some room1 ∧
        room1.content = "y" ∧ room1.users = ["A"] ∧ room1.chatHistory = []) ∧
      (note_change [("r", mkRoom "r" ["A"] "x" [] 0)] "A" "r" "y").2 =
        [Event.note_update ((["A"] : List String).filter (fun u => decide (u ≠ "A"))) "y" "A"]) := by
  constructor
  · apply (claim_C3 [("r", mkRoom "r" ["A"] "x" [] 0)] "B" "r" "y").1
    intro room hr
    have h2 : some (mkRoom "r" ["A"] "x" [] 0) = some room := hr
    injection h2 with h3
    rw [← h3]
    decide
  · exact (claim_C3 [("r", mkRoom "r" ["A"] "x" [] 0)] "A" "r" "y").2
      (mkRoom "r" ["A"] "x" [] 0) rfl (by decide)

/-- C4: when a leave or a disconnect removes the last member of a room,
the room is gone from the store as soon as the operation completes. -/
theorem claim_C4 (st : RoomStore) (sid roomId : String) (room : Room)
    (h : mapGet st roomId = some room) (hmem : sid ∈ room.users)
    (hlast : room.users.filter (fun u => decide (u ≠ sid)) = []) :
    mapGet (leave_room st sid roomId).1 roomId = none ∧
    mapGet (disconnect st sid).1 roomId = none :=
  ⟨leave_room_get_empty st sid roomId room h hlast,
   disconnect_get_empty st sid roomId room h hmem hlast⟩

/-- C4 witness: sole member A leaves, and separately disconnects, from
room r; the room is deleted both ways. -/
theorem claim_C4_witness :
    mapGet (leave_room [("r", mkRoom "r" ["A"] "x" [] 0)] "A" "r").1 "r" = none ∧
    mapGet (disconnect [("r", mkRoom "r" ["A"] "x" [] 0)] "A").1 "r" = none :=
  claim_C4 [("r", mkRoom "r" ["A"] "x" [] 0)] "A" "r" (mkRoom "r" ["A"] "x" [] 0)
    rfl (by decide) (by decide)

/-- C5, counterexample: a leave_room from B, who never joined room r whose
only member is A, leaves the store unchanged but still emits a user_left
event delivered to the member A, so the operation is not free of
observable events. -/
theorem claim_C5_counterexample :
    (leave_room [("r", mkRoom "r" ["A"] "x" [] 0)] "B" "r").1 =
      [("r", mkRoom "r" ["A"] "x" [] 0)] ∧
    (leave_room [("r", mkRoom "r" ["A"] "x" [] 0)] "B" "r").2 =
      [Event.user_left ["A"] "B" ["A"]] := by
  decide

/-- C5 (amended): a leave_room by a non-member of an existing non-empty
room leaves the store unchanged, but it does emit one user_left event,
carrying the leaver id and the unchanged member list, addressed to the
room members. -/
theorem claim_C5_amended (st : RoomStore) (sid roomId : String) (room : Room)
    (h : mapGet st roomId = some room) (hnm : sid ∉ room.users)
    (hne : room.users ≠ []) :
    (leave_room st sid roomId).1 = st ∧
    (leave_room st sid roomId).2 = [Event.user_left room.users sid room.users] := by
  rw [leave_room_of_nonmember st sid roomId room h hnm hne]
  exact ⟨rfl, rfl⟩

/-- C5 witness: the amended theorem at a concrete one-member store. -/
theorem claim_C5_amended_witness :
    (leave_room [("r", mkRoom "r" ["A"] "y" [] 0)] "B" "r").1 =
      [("r", mkRoom "r" ["A"] "y" [] 0)] ∧
    (leave_room [("r", mkRoom "r" ["A"] "y" [] 0)] "B" "r").2 =
      [Event.user_left ["A"] "B" ["A"]] :=
  claim_C5_amended [("r", mkRoom "r" ["A"] "y" [] 0)] "B" "r"
    (mkRoom "r" ["A"] "y" [] 0) rfl (by decide) (by decide)

/-- C6: a single sweep emits nothing and, on a store with unique keys,
removes a stored room exactly when its member list is empty and its
creation time is older than one hour before the sweep time; otherwise the
room survives unchanged. -/
theorem claim_C6 (st : RoomStore) (now : Nat) (roomId : String) (room : Room)
    (hkeys : (st.map Prod.fst).Nodup) (h : mapGet st roomId = some room) :
    (cleanupSweep st now).2 = [] ∧
    (room.users.length = 0 ∧ room.createdAt < now - 60 * 60 * 1000 →
       mapGet (cleanupSweep st now).1 roomId = none) ∧
    (¬ (room.users.length = 0 ∧ room.createdAt < now - 60 * 60 * 1000) →
       mapGet (cleanupSweep st now).1 roomId = some room) := by
  refine ⟨rfl, ?_, ?_⟩
  · intro hcond
    apply mapGet_filter_of_false st _ roomId room hkeys h
    simp [hcond.1, hcond.2]
  · intro hcond
    apply mapGet_filter_of_true st _ roomId room h
    rcases not_and_or.mp hcond with h1 | h1 <;> simp [h1]

/-- C6 witness: an empty room created at time 0 is swept at time 7200000
(two hours after creation). -/
theorem claim_C6_witness :
    (cleanupSweep [("r1", mkRoom "r1" [] "x" [] 0)] 7200000).2 = [] ∧
    ((mkRoom "r1" [] "x" [] 0).users.length = 0 ∧
      (mkRoom "r1" [] "x" [] 0).createdAt < 7200000 - 60 * 60 * 1000 →
       mapGet (cleanupSweep [("r1", mkRoom "r1" [] "x" [] 0)] 7200000).1 "r1" = none) ∧
    (¬ ((mkRoom "r1" [] "x" [] 0).users.length = 0 ∧
        (mkRoom "r1" [] "x" [] 0).createdAt < 7200000 - 60 * 60 * 1000) →
       mapGet (cleanupSweep [("r1", mkRoom "r1" [] "x" [] 0)] 7200000).1 "r1" =
         some (mkRoom "r1" [] "x" [] 0)) :=
  claim_C6 [("r1", mkRoom "r1" [] "x" [] 0)] 7200000 "r1" (mkRoom "r1" [] "x" [] 0)
    (by decide) rfl

/-- C7: a successful chat append broadcasts the message to the full member
list, which includes the sender, while a successful note_change broadcasts
note_update to exactly the members other than the sender. -/
theorem claim_C7 (st : RoomStore) (sid roomId c : String) (m : ChatMessage)
    (room : Room) (h : mapGet st roomId = some room) (hmem : sid ∈ room.users) :
    ((chat_message st sid roomId m).2 = [Event.chat_message room.users m] ∧
     sid ∈ room.users) ∧
    ((note_change st sid roomId c).2 =
       [Event.note_update (room.users.filter (fun u => decide (u ≠ sid))) c sid] ∧
     sid ∉ room.users.filter (fun u => decide (u ≠ sid)) ∧
     ∀ x ∈ room.users, x ≠ sid → x ∈ room.users.filter (fun u => decide (u ≠ sid))) := by
  refine ⟨⟨?_, hmem⟩, ?_, ?_, ?_⟩
  · rw [chat_message_of_member st sid roomId m room h hmem]
  · rw [note_change_of_member st sid roomId c room h hmem]
  · intro hbad
    have h2 := (List.mem_filter.mp hbad).2
    simp at h2
  · intro x hx hne
    exact List.mem_filter.mpr ⟨hx, by simp [hne]⟩

/-- C7 witness: in a two-member room, A chats to both members and edits
towards B only. -/
theorem claim_C7_witness :
    ((chat_message [("r", mkRoom "r" ["A", "B"] "x" [] 0)] "A" "r" 5).2 =
       [Event.chat_message ["A", "B"] 5] ∧
     "A" ∈ (["A", "B"] : List String)) ∧
    ((note_change [("r", mkRoom "r" ["A", "B"] "x" [] 0)] "A" "r" "y").2 =
       [Event.note_update ((["A", "B"] : List String).filter (fun u => decide (u ≠ "A")))
          "y" "A"] ∧
     "A" ∉ (["A", "B"] : List String).filter (fun u => decide (u ≠ "A")) ∧
     ∀ x ∈ (["A", "B"] : List String), x ≠ "A" →
       x ∈ (["A", "B"] : List String).filter (fun u => decide (u ≠ "A"))) :=
  claim_C7 [("r", mkRoom "r" ["A", "B"] "x" [] 0)] "A" "r" "y" 5
    (mkRoom "r" ["A", "B"] "x" [] 0) rfl (by decide)

/-- C8: every join succeeds: the joiner ends up in the member list and
receives a room_joined snapshot with the room id, the full member list,
the current content and the full chat history; if the room was absent it
is created with the non-empty default welcome content, an empty history, a
creation time equal to the join time, and the joiner as sole member. -/
theorem claim_C8 (st : RoomStore) (sid roomId : String) (now : Nat) :
    ∃ room1, mapGet (join_room st sid roomId now).1 roomId = some room1 ∧
      sid ∈ room1.users ∧
      Event.room_joined sid roomId room1.users room1.content room1.chatHistory
        ∈ (join_room st sid roomId now).2 ∧
      (mapGet st roomId = none →
        room1.users = [sid] ∧ room1.content = defaultContent ∧ defaultContent ≠ "" ∧
        room1.chatHistory = [] ∧ room1.createdAt = now) := by
  cases hr : mapGet st roomId with
  | none =>
      rw [join_room_of_none st sid roomId now hr]
      refine ⟨mkRoom roomId [sid] defaultContent [] now, ?_, ?_, ?_, ?_⟩
      · exact mapGet_append_none st roomId _ hr
      · simp [mkRoom]
      · simp [mkRoom]
      · exact fun _ => ⟨rfl, rfl, by decide, rfl, rfl⟩
  | some room =>
      rw [join_room_of_some st sid roomId now room hr]
      by_cases hmem : sid ∈ room.users
      · refine ⟨room, ?_, hmem, ?_, ?_⟩
        · simp [hmem, mapGet_mapSet_self]
        · simp [hmem]
        · intro hnone
          exact absurd hnone (by simp)
      · refine ⟨{ room with users := room.users ++ [sid] }, ?_, ?_, ?_, ?_⟩
        · simp [hmem, mapGet_mapSet_self]
        · simp
        · simp [hmem]
        · intro hnone
          exact absurd hnone (by simp)

/-- C8 witness: joining the empty-string room id on the empty store. -/
theorem claim_C8_witness :
    ∃ room1, mapGet (join_room [] "A" "" 42).1 "" = some room1 ∧
      "A" ∈ room1.users ∧
      Event.room_joined "A" "" room1.users room1.content room1.chatHistory
        ∈ (join_room [] "A" "" 42).2 ∧
      (mapGet ([] : RoomStore) "" = none →
        room1.users = ["A"] ∧ room1.content = defaultContent ∧ defaultContent ≠ "" ∧
        room1.chatHistory = [] ∧ room1.createdAt = 42) :=
  claim_C8 [] "A" "" 42

/-- C9: every join additionally sends the joiner a note_update with the
room's current content and sender system whenever that content is a
non-empty string, and this always happens on the creating join because the
default content is non-empty. -/
theorem claim_C9 (st : RoomStore) (sid roomId : String) (now : Nat) :
    ∃ room1, mapGet (join_room st sid roomId now).1 roomId = some room1 ∧
      (room1.content ≠ "" →
        Event.note_update [sid] room1.content "system"
          ∈ (join_room st sid roomId now).2) ∧
      (mapGet st roomId = none →
        room1.content = defaultContent ∧ defaultContent ≠ "" ∧
        Event.note_update [sid] defaultContent "system"
          ∈ (join_room st sid roomId now).2) := by
  cases hr : mapGet st roomId with
  | none =>
      rw [join_room_of_none st sid roomId now hr]
      refine ⟨mkRoom roomId [sid] defaultContent [] now, ?_, ?_, ?_⟩
      · exact mapGet_append_none st roomId _ hr
      · intro _
        simp [mkRoom]
      · intro _
        exact ⟨rfl, by decide, by simp⟩
  | some room =>
      rw [join_room_of_some st sid roomId now room hr]
      refine ⟨if sid ∈ room.users then room
              else { room with users := room.users ++ [sid] },
        mapGet_mapSet_self _ _ _, ?_, ?_⟩
      · intro hc
        simp only []
        simp [hc]
      · intro hnone
        exact absurd hnone (by simp)

/-- C9 witness: the first join into a fresh room receives the system
note_update with the default content. -/
theorem claim_C9_witness :
    ∃ room1, mapGet (join_room [] "A" "r" 3).1 "r" = some room1 ∧
      (room1.content ≠ "" →
        Event.note_update ["A"] room1.content "system" ∈ (join_room [] "A" "r" 3).2) ∧
      (mapGet ([] : RoomStore) "r" = none →
        room1.content = defaultContent ∧ defaultContent ≠ "" ∧
        Event.note_update ["A"] defaultContent "system" ∈ (join_room [] "A" "r" 3).2) :=
  claim_C9 [] "A" "r" 3

/-- C10: along every trace of operations from the empty store, every room
present in the store has at least one member, so the sweep's empty-room
condition is never met by a reachable stored room. -/
theorem claim_C10 (ops : List Op) (roomId : String) (room : Room)
    (h : mapGet (runOps ops) roomId = some room) :
    1 ≤ room.users.length := by
  have hne : room.users ≠ [] :=
    allNonEmpty_runOps ops (roomId, room) (mapGet_mem _ _ _ h)
  have hpos := List.length_pos.mpr hne
  omega

/-- C10 witness: the room created by a single join has one member. -/
theorem claim_C10_witness :
    1 ≤ (mkRoom "r" ["A"] defaultContent [] 0).users.length :=
  claim_C10 [Op.join "A" "r" 0] "r" (mkRoom "r" ["A"] defaultContent [] 0) rfl
